import Mathlib

/-!
Verification development for the moteus CAN-FD register protocol codec
(moteus_protocol.h and wrapper.h).

Numeric model: C++ doubles and floats are modelled as exact rational
numbers extended with the three non-finite tags NaN, +inf, -inf
(inductive Dbl).  Machine integers are modelled as Int with explicit
per-type minimum/maximum bounds; static_cast from double to a signed
integer type (defined for in-range values) is truncation toward zero.
Byte buffers are lists of naturals, each < 256 at well-formed inputs.
-/

namespace Moteus

/-- The five wire resolutions of the protocol (enum class Resolution). -/
inductive Resolution where
  | kInt8
  | kInt16
  | kInt32
  | kFloat
  | kIgnore
deriving DecidableEq

/-- Model of a C++ double: an exact rational, or one of the non-finite
values NaN, +infinity, -infinity. -/
inductive Dbl where
  | fin (q : ℚ)
  | nan
  | posInf
  | negInf
deriving DecidableEq

/-- std::isfinite. -/
def Dbl.isFinite : Dbl → Bool
  | .fin _ => true
  | _ => false

/-- static_cast from double to a signed integer type truncates toward
zero (floor for nonnegative, ceiling for negative). -/
def truncTowardZero (q : ℚ) : ℤ :=
  if 0 ≤ q then ⌊q⌋ else ⌈q⌉

/-- Saturate<T>(value, scale) from moteus_protocol.h, parameterized by
the minimum and maximum representable values of T.  Non-finite input
maps to the type minimum; otherwise value/scale is clamped to
[-max, +max] and truncated to an integer. -/
def Saturate (tmin tmax : ℤ) (value : Dbl) (scale : ℚ) : ℤ :=
  match value with
  | .fin v =>
      if v / scale < -(tmax : ℚ) then -tmax
      else if (tmax : ℚ) < v / scale then tmax
      else truncTowardZero (v / scale)
  | _ => tmin

/-- MultiplexParser::Nanify<T>: the type minimum decodes to NaN, any
other raw integer decodes to itself. -/
def Nanify (tmin : ℤ) (value : ℤ) : Dbl :=
  if value = tmin then .nan else .fin (value : ℚ)

/-- Multiplication of a decoded value by a scale factor; NaN (and the
infinities) absorb the multiplication as in IEEE arithmetic. -/
def Dbl.mulScale : Dbl → ℚ → Dbl
  | .fin q, s => .fin (q * s)
  | d, _ => d

/-- A single value as it stands on the wire: a raw integer for the
integer resolutions, or a float bit pattern for kFloat. -/
inductive WireValue where
  | int (v : ℤ)
  | flt (v : Dbl)
deriving DecidableEq

def int8_min : ℤ := -128
def int8_max : ℤ := 127
def int16_min : ℤ := -32768
def int16_max : ℤ := 32767
def int32_min : ℤ := -2147483648
def int32_max : ℤ := 2147483647

/-- WriteCanFrame::WriteMapped: quantize one value at the requested
resolution with the per-resolution scale.  kIgnore throws
(std::runtime_error), modelled as none. -/
def WriteMapped (value : Dbl) (int8Scale int16Scale int32Scale : ℚ) :
    Resolution → Option WireValue
  | .kInt8 => some (.int (Saturate int8_min int8_max value int8Scale))
  | .kInt16 => some (.int (Saturate int16_min int16_max value int16Scale))
  | .kInt32 => some (.int (Saturate int32_min int32_max value int32Scale))
  | .kFloat => some (.flt value)
  | .kIgnore => none

/-- MultiplexParser::ReadMapped: decode one wire value at the requested
resolution with the per-resolution scale.  The kIgnore (default) branch
throws (std::logic_error), modelled as none; a resolution/wire-shape
mismatch is likewise none. -/
def ReadMapped (res : Resolution) (int8Scale int16Scale int32Scale : ℚ)
    (w : WireValue) : Option Dbl :=
  match res, w with
  | .kInt8, .int v => some ((Nanify int8_min v).mulScale int8Scale)
  | .kInt16, .int v => some ((Nanify int16_min v).mulScale int16Scale)
  | .kInt32, .int v => some ((Nanify int32_min v).mulScale int32Scale)
  | .kFloat, .flt f => some f
  | _, _ => none

/-- The scale WriteMapped and ReadMapped select for a resolution. -/
def scaleOf (res : Resolution) (int8Scale int16Scale int32Scale : ℚ) : ℚ :=
  match res with
  | .kInt8 => int8Scale
  | .kInt16 => int16Scale
  | .kInt32 => int32Scale
  | _ => 1

/-- Maximum representable value of the integer type of a resolution. -/
def intMaxOf : Resolution → ℤ
  | .kInt8 => int8_max
  | .kInt16 => int16_max
  | .kInt32 => int32_max
  | _ => 0

/-- Minimum representable value of the integer type of a resolution. -/
def intMinOf : Resolution → ℤ
  | .kInt8 => int8_min
  | .kInt16 => int16_min
  | .kInt32 => int32_min
  | _ => 0

lemma truncTowardZero_abs_le (q : ℚ) : |(truncTowardZero q : ℚ)| ≤ |q| := by
  unfold truncTowardZero
  split
  · next h =>
      rw [abs_of_nonneg (by exact_mod_cast Int.floor_nonneg.mpr h),
          abs_of_nonneg h]
      exact Int.floor_le q
  · next h =>
      have hq : q ≤ 0 := le_of_lt (lt_of_not_ge h)
      rw [abs_of_nonpos
            (by exact_mod_cast Int.ceil_le.mpr (by exact_mod_cast hq)),
          abs_of_nonpos hq]
      exact neg_le_neg (Int.le_ceil q)

lemma truncTowardZero_err_lt (q : ℚ) :
    |(truncTowardZero q : ℚ) - q| < 1 := by
  unfold truncTowardZero
  split
  · have h1 : (⌊q⌋ : ℚ) ≤ q := Int.floor_le q
    have h2 : q - 1 < (⌊q⌋ : ℚ) := Int.sub_one_lt_floor q
    rw [abs_sub_comm, abs_of_nonneg (by linarith)]
    linarith
  · have h1 : q ≤ (⌈q⌉ : ℚ) := Int.le_ceil q
    have h2 : (⌈q⌉ : ℚ) < q + 1 := Int.ceil_lt_add_one q
    rw [abs_of_nonneg (by linarith)]
    linarith

/-- If |v| ≤ tmax * scale with positive scale, Saturate does not clamp
and simply truncates v / scale. -/
lemma Saturate_in_range (tmin tmax : ℤ) (v s : ℚ)
    (hs : 0 < s) (hv : |v| ≤ (tmax : ℚ) * s) :
    Saturate tmin tmax (.fin v) s = truncTowardZero (v / s) := by
  have hq : |v / s| ≤ (tmax : ℚ) := by
    rw [abs_div, abs_of_pos hs]
    rw [div_le_iff₀ hs]
    exact hv
  rcases abs_le.mp hq with ⟨hlo, hhi⟩
  simp only [Saturate]
  rw [if_neg (not_lt.mpr hlo), if_neg (not_lt.mpr hhi)]

/-- Core round-trip bound: quantize then dequantize an in-range finite
value and the result is finite, within one scale unit of the input. -/
lemma roundTrip_core (tmin tmax : ℤ) (hmin : tmin = -tmax - 1)
    (v s : ℚ) (hs : 0 < s) (hv : |v| ≤ (tmax : ℚ) * s) :
    ∃ u : ℚ, (Nanify tmin (Saturate tmin tmax (.fin v) s)).mulScale s
        = .fin u ∧ |u - v| ≤ s := by
  have hq : |v / s| ≤ (tmax : ℚ) := by
    rw [abs_div, abs_of_pos hs, div_le_iff₀ hs]
    exact hv
  rw [Saturate_in_range tmin tmax v s hs hv]
  have habs : |(truncTowardZero (v / s) : ℚ)| ≤ (tmax : ℚ) :=
    le_trans (truncTowardZero_abs_le _) hq
  have habsZ : |truncTowardZero (v / s)| ≤ tmax := by
    have := habs
    rw [← Int.cast_abs] at this
    exact_mod_cast this
  have hne : truncTowardZero (v / s) ≠ tmin := by
    rcases abs_le.mp habsZ with ⟨h1, _⟩
    omega
  rw [Nanify, if_neg hne]
  refine ⟨(truncTowardZero (v / s) : ℚ) * s, rfl, ?_⟩
  have hvs : v = v / s * s := (div_mul_cancel₀ v (ne_of_gt hs)).symm
  have hrw : (truncTowardZero (v / s) : ℚ) * s - v
      = ((truncTowardZero (v / s) : ℚ) - v / s) * s := by
    rw [sub_mul, ← hvs]
  rw [hrw, abs_mul, abs_of_pos hs]
  calc |(truncTowardZero (v / s) : ℚ) - v / s| * s
      ≤ 1 * s := by
        exact mul_le_mul_of_nonneg_right
          (le_of_lt (truncTowardZero_err_lt _)) (le_of_lt hs)
    _ = s := one_mul s

/-- Claim C1: for every scale factor and every value v with
|v| ≤ max * scale at an integer resolution, decoding the encoding of v
(ReadMapped after WriteMapped) yields a finite result within one unit
of that resolution's scale of v; for the kFloat resolution the
round-trip is exact.  (Doubles are modelled as exact rationals.) -/
theorem C1_quantize_dequantize_roundtrip :
    (∀ (res : Resolution) (s8 s16 s32 : ℚ) (v : ℚ),
      (res = .kInt8 ∨ res = .kInt16 ∨ res = .kInt32) →
      0 < scaleOf res s8 s16 s32 →
      |v| ≤ (intMaxOf res : ℚ) * scaleOf res s8 s16 s32 →
      ∃ w u, WriteMapped (.fin v) s8 s16 s32 res = some w ∧
        ReadMapped res s8 s16 s32 w = some (.fin u) ∧
        |u - v| ≤ scaleOf res s8 s16 s32) ∧
    (∀ (f : Dbl) (s8 s16 s32 : ℚ),
      WriteMapped f s8 s16 s32 .kFloat = some (.flt f) ∧
      ReadMapped .kFloat s8 s16 s32 (.flt f) = some f) := by
  constructor
  · intro res s8 s16 s32 v hres hs hv
    rcases hres with h | h | h <;> subst h
    · simp only [scaleOf, intMaxOf] at hs hv
      obtain ⟨u, hu1, hu2⟩ :=
        roundTrip_core int8_min int8_max (by norm_num [int8_min, int8_max])
          v s8 hs (by exact_mod_cast hv)
      exact ⟨.int (Saturate int8_min int8_max (.fin v) s8), u, rfl,
        by simp only [ReadMapped, hu1], by simpa [scaleOf] using hu2⟩
    · simp only [scaleOf, intMaxOf] at hs hv
      obtain ⟨u, hu1, hu2⟩ :=
        roundTrip_core int16_min int16_max (by norm_num [int16_min, int16_max])
          v s16 hs (by exact_mod_cast hv)
      exact ⟨.int (Saturate int16_min int16_max (.fin v) s16), u, rfl,
        by simp only [ReadMapped, hu1], by simpa [scaleOf] using hu2⟩
    · simp only [scaleOf, intMaxOf] at hs hv
      obtain ⟨u, hu1, hu2⟩ :=
        roundTrip_core int32_min int32_max (by norm_num [int32_min, int32_max])
          v s32 hs (by exact_mod_cast hv)
      exact ⟨.int (Saturate int32_min int32_max (.fin v) s32), u, rfl,
        by simp only [ReadMapped, hu1], by simpa [scaleOf] using hu2⟩
  · intro f s8 s16 s32
    exact ⟨rfl, rfl⟩

/-- Witness for C1 at res = kInt8, scales 1, v = 3. -/
theorem C1_witness :
    ∃ w u, WriteMapped (.fin 3) 1 1 1 .kInt8 = some w ∧
      ReadMapped .kInt8 1 1 1 w = some (.fin u) ∧
      |u - 3| ≤ scaleOf .kInt8 1 1 1 :=
  C1_quantize_dequantize_roundtrip.1 .kInt8 1 1 1 3 (Or.inl rfl)
    (by norm_num [scaleOf])
    (by norm_num [scaleOf, intMaxOf, int8_max])

/-- Claim C2: quantizing a non-finite double (NaN, +inf, -inf) at any
integer resolution yields the target type minimum regardless of sign,
and dequantizing the type minimum yields NaN, for every scale. -/
theorem C2_nonfinite_sentinel :
    ∀ (value : Dbl), value.isFinite = false →
    ∀ s8 s16 s32 : ℚ,
      (WriteMapped value s8 s16 s32 .kInt8 = some (.int int8_min) ∧
       WriteMapped value s8 s16 s32 .kInt16 = some (.int int16_min) ∧
       WriteMapped value s8 s16 s32 .kInt32 = some (.int int32_min)) ∧
      (ReadMapped .kInt8 s8 s16 s32 (.int int8_min) = some .nan ∧
       ReadMapped .kInt16 s8 s16 s32 (.int int16_min) = some .nan ∧
       ReadMapped .kInt32 s8 s16 s32 (.int int32_min) = some .nan) := by
  intro value hval s8 s16 s32
  refine ⟨⟨?_, ?_, ?_⟩, ?_, ?_, ?_⟩ <;>
    cases value <;>
      simp_all [WriteMapped, ReadMapped, Saturate, Nanify, Dbl.isFinite,
        Dbl.mulScale]

/-- Witness for C2 at value = NaN, scales 1. -/
theorem C2_witness :
    (WriteMapped .nan 1 1 1 .kInt8 = some (.int int8_min) ∧
     WriteMapped .nan 1 1 1 .kInt16 = some (.int int16_min) ∧
     WriteMapped .nan 1 1 1 .kInt32 = some (.int int32_min)) ∧
    (ReadMapped .kInt8 1 1 1 (.int int8_min) = some .nan ∧
     ReadMapped .kInt16 1 1 1 (.int int16_min) = some .nan ∧
     ReadMapped .kInt32 1 1 1 (.int int32_min) = some .nan) :=
  C2_nonfinite_sentinel .nan rfl 1 1 1

/-- The quantized value of any finite input is within [-tmax, tmax],
and in particular never the reserved minimum tmin = -tmax - 1. -/
lemma Saturate_range (tmin tmax : ℤ) (hmin : tmin = -tmax - 1)
    (hmax : 0 < tmax) (v s : ℚ) :
    -tmax ≤ Saturate tmin tmax (.fin v) s ∧
    Saturate tmin tmax (.fin v) s ≤ tmax ∧
    Saturate tmin tmax (.fin v) s ≠ tmin := by
  have hmain : -tmax ≤ Saturate tmin tmax (.fin v) s ∧
      Saturate tmin tmax (.fin v) s ≤ tmax := by
    simp only [Saturate]
    split
    · omega
    · split
      · omega
      · next h1 h2 =>
          have hlo : -(tmax : ℚ) ≤ v / s := not_lt.mp h1
          have hhi : v / s ≤ (tmax : ℚ) := not_lt.mp h2
          have habs : |v / s| ≤ (tmax : ℚ) := abs_le.mpr ⟨hlo, hhi⟩
          have h3 : |(truncTowardZero (v / s) : ℚ)| ≤ (tmax : ℚ) :=
            le_trans (truncTowardZero_abs_le _) habs
          have h4 : |truncTowardZero (v / s)| ≤ tmax := by
            rw [← Int.cast_abs] at h3
            exact_mod_cast h3
          rcases abs_le.mp h4 with ⟨h5, h6⟩
          exact ⟨h5, h6⟩
  obtain ⟨ha, hb⟩ := hmain
  exact ⟨ha, hb, by omega⟩

/-- Truncation toward zero of an integer is that integer. -/
lemma truncTowardZero_intCast (n : ℤ) : truncTowardZero (n : ℚ) = n := by
  unfold truncTowardZero
  split
  · exact Int.floor_intCast n
  · exact Int.ceil_intCast n

/-- If value / scale exceeds tmax, Saturate clamps to tmax. -/
lemma Saturate_clamp_hi (tmin tmax : ℤ) (hmax : 0 ≤ tmax) (v s : ℚ)
    (h : (tmax : ℚ) < v / s) :
    Saturate tmin tmax (.fin v) s = tmax := by
  have hmaxQ : (0 : ℚ) ≤ (tmax : ℚ) := by exact_mod_cast hmax
  simp only [Saturate]
  rw [if_neg (by intro hc; linarith), if_pos h]

/-- If value / scale is below -tmax, Saturate clamps to -tmax. -/
lemma Saturate_clamp_lo (tmin tmax : ℤ) (v s : ℚ)
    (h : v / s < -(tmax : ℚ)) :
    Saturate tmin tmax (.fin v) s = -tmax := by
  simp only [Saturate]
  rw [if_pos h]

/-- Encoding exactly tmax * scale produces exactly tmax. -/
lemma Saturate_exact_hi (tmin tmax : ℤ) (hmax : 0 ≤ tmax) (s : ℚ)
    (hs : 0 < s) :
    Saturate tmin tmax (.fin ((tmax : ℚ) * s)) s = tmax := by
  have hmaxQ : (0 : ℚ) ≤ (tmax : ℚ) := by exact_mod_cast hmax
  simp only [Saturate]
  have hdiv : (tmax : ℚ) * s / s = (tmax : ℚ) :=
    mul_div_cancel_right₀ _ (ne_of_gt hs)
  rw [hdiv, if_neg (by intro hc; linarith), if_neg (lt_irrefl _)]
  exact truncTowardZero_intCast tmax

/-- Encoding exactly -(tmax * scale) produces exactly -tmax. -/
lemma Saturate_exact_lo (tmin tmax : ℤ) (hmax : 0 ≤ tmax) (s : ℚ)
    (hs : 0 < s) :
    Saturate tmin tmax (.fin (-((tmax : ℚ) * s))) s = -tmax := by
  have hmaxQ : (0 : ℚ) ≤ (tmax : ℚ) := by exact_mod_cast hmax
  simp only [Saturate]
  have hdiv : -((tmax : ℚ) * s) / s = -(tmax : ℚ) := by
    rw [neg_div, mul_div_cancel_right₀ _ (ne_of_gt hs)]
  rw [hdiv, if_neg (lt_irrefl _), if_neg (by intro hc; linarith)]
  rw [show (-(tmax : ℚ)) = ((-tmax : ℤ) : ℚ) by push_cast; ring]
  exact truncTowardZero_intCast (-tmax)

/-- Claim C3: for every finite double, integer resolution and scale,
the quantized integer lies in [-max, +max] and is never the reserved
minimum; and with positive scale, whenever value/scale exceeds +max
(resp. is below -max) the result is exactly +max (resp. -max), the same
wire integer as encoding exactly +-max * scale. -/
theorem C3_saturation :
    ∀ (res : Resolution) (s8 s16 s32 : ℚ) (v : ℚ),
    (res = .kInt8 ∨ res = .kInt16 ∨ res = .kInt32) →
    ∃ q : ℤ, WriteMapped (.fin v) s8 s16 s32 res = some (.int q) ∧
      -(intMaxOf res) ≤ q ∧ q ≤ intMaxOf res ∧ q ≠ intMinOf res ∧
      (0 < scaleOf res s8 s16 s32 →
        (intMaxOf res : ℚ) < v / scaleOf res s8 s16 s32 →
        q = intMaxOf res ∧
        WriteMapped (.fin ((intMaxOf res : ℚ) * scaleOf res s8 s16 s32))
          s8 s16 s32 res = some (.int q)) ∧
      (0 < scaleOf res s8 s16 s32 →
        v / scaleOf res s8 s16 s32 < -(intMaxOf res : ℚ) →
        q = -(intMaxOf res) ∧
        WriteMapped (.fin (-((intMaxOf res : ℚ) * scaleOf res s8 s16 s32)))
          s8 s16 s32 res = some (.int q)) := by
  have main : ∀ (tmin tmax : ℤ), tmin = -tmax - 1 → 0 < tmax →
      ∀ (s v : ℚ),
      ∃ q : ℤ, Saturate tmin tmax (.fin v) s = q ∧
        -tmax ≤ q ∧ q ≤ tmax ∧ q ≠ tmin ∧
        (0 < s → (tmax : ℚ) < v / s →
          q = tmax ∧ Saturate tmin tmax (.fin ((tmax : ℚ) * s)) s = q) ∧
        (0 < s → v / s < -(tmax : ℚ) →
          q = -tmax ∧
          Saturate tmin tmax (.fin (-((tmax : ℚ) * s))) s = q) := by
    intro tmin tmax hmin hmax s v
    obtain ⟨h1, h2, h3⟩ := Saturate_range tmin tmax hmin hmax v s
    refine ⟨Saturate tmin tmax (.fin v) s, rfl, h1, h2, h3, ?_, ?_⟩
    · intro hs hgt
      have hq := Saturate_clamp_hi tmin tmax (le_of_lt hmax) v s hgt
      exact ⟨hq, by
        rw [Saturate_exact_hi tmin tmax (le_of_lt hmax) s hs, hq]⟩
    · intro hs hlt
      have hq := Saturate_clamp_lo tmin tmax v s hlt
      exact ⟨hq, by
        rw [Saturate_exact_lo tmin tmax (le_of_lt hmax) s hs, hq]⟩
  intro res s8 s16 s32 v hres
  rcases hres with h | h | h <;> subst h
  · obtain ⟨q, hq, hrest⟩ :=
      main int8_min int8_max (by norm_num [int8_min, int8_max])
        (by norm_num [int8_max]) s8 v
    exact ⟨q, by simp only [WriteMapped, hq], by
      simpa [intMaxOf, intMinOf, scaleOf, WriteMapped, hq] using hrest⟩
  · obtain ⟨q, hq, hrest⟩ :=
      main int16_min int16_max (by norm_num [int16_min, int16_max])
        (by norm_num [int16_max]) s16 v
    exact ⟨q, by simp only [WriteMapped, hq], by
      simpa [intMaxOf, intMinOf, scaleOf, WriteMapped, hq] using hrest⟩
  · obtain ⟨q, hq, hrest⟩ :=
      main int32_min int32_max (by norm_num [int32_min, int32_max])
        (by norm_num [int32_max]) s32 v
    exact ⟨q, by simp only [WriteMapped, hq], by
      simpa [intMaxOf, intMinOf, scaleOf, WriteMapped, hq] using hrest⟩

/-- Witness for C3: encoding 200 at int8 with scale 1 saturates to 127,
the same wire integer as encoding 127 exactly. -/
theorem C3_witness :
    WriteMapped (.fin 200) 1 1 1 .kInt8 = some (.int 127) ∧
    WriteMapped (.fin ((intMaxOf .kInt8 : ℚ) * scaleOf .kInt8 1 1 1))
      1 1 1 .kInt8 = some (.int 127) := by
  obtain ⟨q, hq, _, _, _, hhi, _⟩ :=
    C3_saturation .kInt8 1 1 1 200 (Or.inl rfl)
  obtain ⟨hq127, hexact⟩ := hhi (by norm_num [scaleOf])
    (by norm_num [scaleOf, intMaxOf, int8_max])
  subst hq127
  rw [show intMaxOf .kInt8 = 127 from rfl] at hq hexact
  exact ⟨hq, hexact⟩

/-! ## Write Combiner (WriteCombiner<N>)

The frame is abstracted as the list of bytes the combiner emits (frame
capacity is modelled separately with WriteCanFrame.Write); emitted
bytes are Int since the source writes int8_t values.  The two
std::logic_error throws are modelled as a none result flag; the header
bytes already written to the frame when the register-offset check
throws are still reported, matching the source order of operations. -/

/-- The 2-bit resolution code, pre-shifted into bits 2..3, added to the
base command (the switch inside WriteCombiner::MaybeWrite).  The
kIgnore arm is unreachable there; the source lambda would return 0. -/
def resolutionCommandOffset : Resolution → ℤ
  | .kInt8 => 0x00
  | .kInt16 => 0x04
  | .kInt32 => 0x08
  | .kFloat => 0x0c
  | .kIgnore => 0x00

/-- Length of the leading run of resolutions equal to r (the lookahead
loop counting consecutive equal resolutions). -/
def runCount (r : Resolution) : List Resolution → ℕ
  | [] => 0
  | x :: xs => if x = r then runCount r xs + 1 else 0

/-- The header bytes for a run: one-byte shorthand with the count in
the low two bits when count ≤ 3, otherwise opcode byte with zero count
field followed by an explicit count byte. -/
def headerBytes (base : ℤ) (r : Resolution) (count : ℕ) : List ℤ :=
  if count ≤ 3 then [base + resolutionCommandOffset r + count]
  else [base + resolutionCommandOffset r, (count : ℤ)]

/-- State of a WriteCombiner<N>: the constructor arguments plus the
mutable current_resolution_ (initially kIgnore) and offset_. -/
structure WriteCombiner where
  base : ℤ
  startRegister : ℕ
  resolutions : List Resolution
  currentResolution : Resolution
  offset : ℕ
deriving DecidableEq

/-- A freshly constructed combiner. -/
def WriteCombiner.init (base : ℤ) (startRegister : ℕ)
    (rs : List Resolution) : WriteCombiner :=
  ⟨base, startRegister, rs, .kIgnore, 0⟩

/-- WriteCombiner::MaybeWrite.  Returns (some b, bytes, state): b tells
the caller whether to write a value, bytes are what was emitted to the
frame.  (none, bytes, state) models the std::logic_error thrown when
the register offset exceeds 127, after the header bytes were already
emitted.  Reading resolutions_ past the end (a caller contract
violation in the source) is modelled as kIgnore. -/
def MaybeWrite (c : WriteCombiner) : Option Bool × List ℤ × WriteCombiner :=
  if c.currentResolution = c.resolutions.getD c.offset .kIgnore then
    (some (decide (c.currentResolution ≠ .kIgnore)), [],
     ⟨c.base, c.startRegister, c.resolutions, c.currentResolution,
      c.offset + 1⟩)
  else if c.resolutions.getD c.offset .kIgnore = .kIgnore then
    (some false, [],
     ⟨c.base, c.startRegister, c.resolutions, .kIgnore, c.offset + 1⟩)
  else if 127 < c.startRegister + c.offset then
    (none,
     headerBytes c.base (c.resolutions.getD c.offset .kIgnore)
       (1 + runCount (c.resolutions.getD c.offset .kIgnore)
          (c.resolutions.drop (c.offset + 1))),
     ⟨c.base, c.startRegister, c.resolutions,
      c.resolutions.getD c.offset .kIgnore, c.offset + 1⟩)
  else
    (some true,
     headerBytes c.base (c.resolutions.getD c.offset .kIgnore)
       (1 + runCount (c.resolutions.getD c.offset .kIgnore)
          (c.resolutions.drop (c.offset + 1)))
       ++ [((c.startRegister + c.offset : ℕ) : ℤ)],
     ⟨c.base, c.startRegister, c.resolutions,
      c.resolutions.getD c.offset .kIgnore, c.offset + 1⟩)

/-- Drive a combiner through n calls to MaybeWrite, collecting each
call's caller-decision and emitted bytes; none if any call threw. -/
def drive (c : WriteCombiner) : ℕ → Option (List (Bool × List ℤ) × WriteCombiner)
  | 0 => some ([], c)
  | n + 1 =>
      match MaybeWrite c with
      | (some b, bytes, c1) =>
          match drive c1 n with
          | some (results, c2) => some ((b, bytes) :: results, c2)
          | none => none
      | (none, _, _) => none

/-- The destructor ~WriteCombiner aborts unless offset_ equals N. -/
def destructorAborts (c : WriteCombiner) : Bool :=
  decide (c.offset ≠ c.resolutions.length)

/-- One MaybeWrite call always succeeds under the 7-bit register
contract, increments offset, preserves the declared data, returns true
iff the resolution at the old offset is not kIgnore, and emits nothing
when it is kIgnore. -/
lemma MaybeWrite_step (c : WriteCombiner)
    (haddr : c.startRegister + c.resolutions.length ≤ 128) :
    ∃ bytes c1,
      MaybeWrite c =
        (some (decide (c.resolutions.getD c.offset .kIgnore ≠ .kIgnore)),
         bytes, c1) ∧
      c1.offset = c.offset + 1 ∧
      c1.resolutions = c.resolutions ∧
      c1.startRegister = c.startRegister ∧
      c1.base = c.base ∧
      (c.resolutions.getD c.offset .kIgnore = .kIgnore → bytes = []) := by
  by_cases h1 : c.currentResolution = c.resolutions.getD c.offset .kIgnore
  · refine ⟨[], ⟨c.base, c.startRegister, c.resolutions, c.currentResolution,
      c.offset + 1⟩, ?_, rfl, rfl, rfl, rfl, fun _ => rfl⟩
    rw [MaybeWrite, if_pos h1, h1]
  · by_cases h2 : c.resolutions.getD c.offset .kIgnore = .kIgnore
    · refine ⟨[], ⟨c.base, c.startRegister, c.resolutions, .kIgnore,
        c.offset + 1⟩, ?_, rfl, rfl, rfl, rfl, fun _ => rfl⟩
      rw [MaybeWrite, if_neg h1, if_pos h2, h2]
      simp
    · have hlen : c.offset < c.resolutions.length := by
        by_contra hge
        exact h2 (List.getD_eq_default _ _ (le_of_not_lt hge))
      have haddr2 : ¬ 127 < c.startRegister + c.offset := by omega
      refine ⟨headerBytes c.base (c.resolutions.getD c.offset .kIgnore)
          (1 + runCount (c.resolutions.getD c.offset .kIgnore)
            (c.resolutions.drop (c.offset + 1)))
          ++ [((c.startRegister + c.offset : ℕ) : ℤ)],
        ⟨c.base, c.startRegister, c.resolutions,
          c.resolutions.getD c.offset .kIgnore, c.offset + 1⟩,
        ?_, rfl, rfl, rfl, rfl, fun hc => absurd hc h2⟩
      rw [MaybeWrite, if_neg h1, if_neg h2, if_neg haddr2]
      have h2' : ¬ c.resolutions[c.offset]?.getD Resolution.kIgnore
          = Resolution.kIgnore := by simpa [List.getD] using h2
      simp [h2']

/-- Driving from any reachable state: every call succeeds, each
decision is true iff the resolution at that index is not kIgnore, and
nothing is emitted at kIgnore indices. -/
lemma drive_spec (n : ℕ) : ∀ (c : WriteCombiner),
    c.startRegister + c.resolutions.length ≤ 128 →
    ∃ results final,
      drive c n = some (results, final) ∧
      results.length = n ∧
      final.offset = c.offset + n ∧
      final.resolutions = c.resolutions ∧
      ∀ i, i < n →
        ((results.getD i (false, [])).1 =
          decide (c.resolutions.getD (c.offset + i) .kIgnore ≠ .kIgnore)) ∧
        (c.resolutions.getD (c.offset + i) .kIgnore = .kIgnore →
          (results.getD i (false, [])).2 = []) := by
  induction n with
  | zero =>
      intro c _
      exact ⟨[], c, rfl, rfl, rfl, rfl, fun i hi => absurd hi (by omega)⟩
  | succ n ih =>
      intro c haddr
      obtain ⟨bytes, c1, hmw, hoff, hres, hstart, _, hign⟩ :=
        MaybeWrite_step c haddr
      obtain ⟨results, final, hdrive, hlen, hfoff, hfres, hpts⟩ :=
        ih c1 (by rw [hstart, hres]; exact haddr)
      refine ⟨(decide (c.resolutions.getD c.offset .kIgnore ≠ .kIgnore),
          bytes) :: results, final, ?_, by simp [hlen], ?_, ?_, ?_⟩
      · simp only [drive, hmw, hdrive]
      · rw [hfoff, hoff]; omega
      · rw [hfres, hres]
      · intro i hi
        cases i with
        | zero =>
            exact ⟨by simp, fun hc => by simpa using hign hc⟩
        | succ i =>
            have hi' : i < n := by omega
            obtain ⟨hp1, hp2⟩ := hpts i hi'
            rw [hres, hoff] at hp1 hp2
            have harith : c.offset + 1 + i = c.offset + (i + 1) := by omega
            rw [harith] at hp1 hp2
            exact ⟨by simpa using hp1, fun hc => by simpa using hp2 hc⟩

/-- Claim C4: when MaybeWrite starts a new non-Ignore run of length
count (with the register offset within the 7-bit contract), it emits
the header: base command plus the 2-bit resolution code, with count in
the low 2 bits as a single byte iff count ≤ 3, else the opcode byte
followed by an explicit count byte; then the start register byte.  In
particular four consecutive kInt8 use the long form and two use the
shorthand. -/
theorem C4_header_emission :
    (∀ c : WriteCombiner,
      c.currentResolution ≠ c.resolutions.getD c.offset .kIgnore →
      c.resolutions.getD c.offset .kIgnore ≠ .kIgnore →
      c.startRegister + c.offset ≤ 127 →
      ∃ bytes c1, MaybeWrite c = (some true, bytes, c1) ∧
        ((1 + runCount (c.resolutions.getD c.offset .kIgnore)
            (c.resolutions.drop (c.offset + 1)) ≤ 3 →
          bytes = [c.base +
              resolutionCommandOffset (c.resolutions.getD c.offset .kIgnore) +
              ((1 + runCount (c.resolutions.getD c.offset .kIgnore)
                (c.resolutions.drop (c.offset + 1)) : ℕ) : ℤ),
            ((c.startRegister + c.offset : ℕ) : ℤ)]) ∧
        (3 < 1 + runCount (c.resolutions.getD c.offset .kIgnore)
            (c.resolutions.drop (c.offset + 1)) →
          bytes = [c.base +
              resolutionCommandOffset (c.resolutions.getD c.offset .kIgnore),
            ((1 + runCount (c.resolutions.getD c.offset .kIgnore)
                (c.resolutions.drop (c.offset + 1)) : ℕ) : ℤ),
            ((c.startRegister + c.offset : ℕ) : ℤ)]))) ∧
    drive (WriteCombiner.init 0 0x20 [.kInt8, .kInt8, .kInt8, .kInt8]) 4 =
      some ([(true, [0x00, 4, 0x20]), (true, []), (true, []), (true, [])],
        ⟨0, 0x20, [.kInt8, .kInt8, .kInt8, .kInt8], .kInt8, 4⟩) ∧
    drive (WriteCombiner.init 0 0x20 [.kInt8, .kInt8]) 2 =
      some ([(true, [0x02, 0x20]), (true, [])],
        ⟨0, 0x20, [.kInt8, .kInt8], .kInt8, 2⟩) := by
  refine ⟨?_, by decide, by decide⟩
  intro c h1 h2 haddr
  refine ⟨headerBytes c.base (c.resolutions.getD c.offset .kIgnore)
      (1 + runCount (c.resolutions.getD c.offset .kIgnore)
        (c.resolutions.drop (c.offset + 1)))
      ++ [((c.startRegister + c.offset : ℕ) : ℤ)],
    ⟨c.base, c.startRegister, c.resolutions,
      c.resolutions.getD c.offset .kIgnore, c.offset + 1⟩, ?_, ?_, ?_⟩
  · rw [MaybeWrite, if_neg h1, if_neg h2, if_neg (by omega)]
  · intro hcount
    rw [headerBytes, if_pos hcount]
    simp
  · intro hcount
    rw [headerBytes, if_neg (by omega)]
    simp

/-- Witness for C4 at a fresh combiner over [kInt16]. -/
theorem C4_witness :
    ∃ bytes c1,
      MaybeWrite (WriteCombiner.init 0x10 0 [.kInt16]) =
        (some true, bytes, c1) ∧
      ((1 + runCount
          ((WriteCombiner.init 0x10 0 [.kInt16]).resolutions.getD
            (WriteCombiner.init 0x10 0 [.kInt16]).offset .kIgnore)
          ((WriteCombiner.init 0x10 0 [.kInt16]).resolutions.drop
            ((WriteCombiner.init 0x10 0 [.kInt16]).offset + 1)) ≤ 3 →
        bytes = [(WriteCombiner.init 0x10 0 [.kInt16]).base +
            resolutionCommandOffset
              ((WriteCombiner.init 0x10 0 [.kInt16]).resolutions.getD
                (WriteCombiner.init 0x10 0 [.kInt16]).offset .kIgnore) +
            ((1 + runCount
                ((WriteCombiner.init 0x10 0 [.kInt16]).resolutions.getD
                  (WriteCombiner.init 0x10 0 [.kInt16]).offset .kIgnore)
                ((WriteCombiner.init 0x10 0 [.kInt16]).resolutions.drop
                  ((WriteCombiner.init 0x10 0 [.kInt16]).offset + 1)) : ℕ) : ℤ),
          (((WriteCombiner.init 0x10 0 [.kInt16]).startRegister +
              (WriteCombiner.init 0x10 0 [.kInt16]).offset : ℕ) : ℤ)]) ∧
      (3 < 1 + runCount
          ((WriteCombiner.init 0x10 0 [.kInt16]).resolutions.getD
            (WriteCombiner.init 0x10 0 [.kInt16]).offset .kIgnore)
          ((WriteCombiner.init 0x10 0 [.kInt16]).resolutions.drop
            ((WriteCombiner.init 0x10 0 [.kInt16]).offset + 1)) →
        bytes = [(WriteCombiner.init 0x10 0 [.kInt16]).base +
            resolutionCommandOffset
              ((WriteCombiner.init 0x10 0 [.kInt16]).resolutions.getD
                (WriteCombiner.init 0x10 0 [.kInt16]).offset .kIgnore),
          ((1 + runCount
              ((WriteCombiner.init 0x10 0 [.kInt16]).resolutions.getD
                (WriteCombiner.init 0x10 0 [.kInt16]).offset .kIgnore)
              ((WriteCombiner.init 0x10 0 [.kInt16]).resolutions.drop
                ((WriteCombiner.init 0x10 0 [.kInt16]).offset + 1)) : ℕ) : ℤ),
          (((WriteCombiner.init 0x10 0 [.kInt16]).startRegister +
              (WriteCombiner.init 0x10 0 [.kInt16]).offset : ℕ) : ℤ)])) :=
  C4_header_emission.1 (WriteCombiner.init 0x10 0 [.kInt16])
    (by decide) (by decide) (by decide)

/-- Claim C6: driving a combiner over its declared resolutions, the
i-th MaybeWrite decision is true iff resolutions[i] is not kIgnore, and
at kIgnore indices nothing is emitted to the frame. -/
theorem C6_decision_iff_not_ignore :
    ∀ (base : ℤ) (startRegister : ℕ) (rs : List Resolution),
    startRegister + rs.length ≤ 128 →
    ∃ results final,
      drive (WriteCombiner.init base startRegister rs) rs.length =
        some (results, final) ∧
      results.length = rs.length ∧
      ∀ i, i < rs.length →
        ((results.getD i (false, [])).1 = true ↔
          rs.getD i .kIgnore ≠ .kIgnore) ∧
        (rs.getD i .kIgnore = .kIgnore →
          (results.getD i (false, [])).2 = []) := by
  intro base startRegister rs haddr
  obtain ⟨results, final, hdrive, hlen, _, _, hpts⟩ :=
    drive_spec rs.length (WriteCombiner.init base startRegister rs) haddr
  refine ⟨results, final, hdrive, hlen, fun i hi => ?_⟩
  obtain ⟨hp1, hp2⟩ := hpts i hi
  constructor
  · rw [hp1]
    simp [WriteCombiner.init]
  · intro hc
    exact hp2 (by simpa [WriteCombiner.init] using hc)

/-- Witness for C6 over [kInt8, kIgnore]. -/
theorem C6_witness :
    drive (WriteCombiner.init 0 0 [.kInt8, .kIgnore]) 2 ≠ none := by
  obtain ⟨results, final, hdrive, -, -⟩ :=
    C6_decision_iff_not_ignore 0 0 [.kInt8, .kIgnore] (by decide)
  have h2 : drive (WriteCombiner.init 0 0 [.kInt8, .kIgnore]) 2 =
      some (results, final) := hdrive
  rw [h2]
  simp

/-- Claim C7: for a combiner over N declared resolutions (within the
7-bit register contract), driving it k times and then tearing it down
aborts in the destructor iff k is not exactly N; driving it exactly N
times never aborts. -/
theorem C7_teardown_invariant :
    ∀ (base : ℤ) (startRegister : ℕ) (rs : List Resolution) (k : ℕ),
    startRegister + rs.length ≤ 128 →
    ∃ results final,
      drive (WriteCombiner.init base startRegister rs) k =
        some (results, final) ∧
      (destructorAborts final = false ↔ k = rs.length) := by
  intro base startRegister rs k haddr
  obtain ⟨results, final, hdrive, _, hoff, hres, _⟩ :=
    drive_spec k (WriteCombiner.init base startRegister rs) haddr
  refine ⟨results, final, hdrive, ?_⟩
  rw [destructorAborts, hres, hoff]
  simp [WriteCombiner.init]

/-- Witness for C7: driving a 1-resolution combiner once does not
abort at teardown. -/
theorem C7_witness :
    drive (WriteCombiner.init 0 0 [.kInt8]) 1 ≠ none := by
  obtain ⟨results, final, hdrive, -⟩ :=
    C7_teardown_invariant 0 0 [.kInt8] 1 (by decide)
  rw [hdrive]
  simp

/-! ## Multiplex Parser (MultiplexParser::next)

The buffer is a list of bytes plus the declared size; indexing is
modelled with List.getD (reads in next are in bounds whenever
size ≤ data.length, which all constructors guarantee). -/

/-- Multiplex::kNop, the no-op filler opcode. -/
def kNop : ℕ := 0x50

/-- MultiplexParser::ResolutionSize (default branch returns 1). -/
def ResolutionSize : Resolution → ℕ
  | .kInt8 => 1
  | .kInt16 => 2
  | .kInt32 => 4
  | .kFloat => 4
  | .kIgnore => 1

/-- The 2-bit resolution id of a reply opcode ((cmd >> 2) & 3). -/
def idToResolution : ℕ → Resolution
  | 0 => .kInt8
  | 1 => .kInt16
  | 2 => .kInt32
  | 3 => .kFloat
  | _ => .kInt8

/-- Parser state: the buffer and declared size plus the mutable cursor
offset_, the run countdown remaining_, current_resolution_ (initially
kIgnore) and current_register_. -/
structure MultiplexParser where
  data : List ℕ
  size : ℕ
  offset : ℕ
  remaining : ℕ
  currentResolution : Resolution
  currentRegister : ℕ
deriving DecidableEq

/-- A freshly constructed parser over a buffer. -/
def MultiplexParser.start (data : List ℕ) (size : ℕ) : MultiplexParser :=
  ⟨data, size, 0, 0, .kIgnore, 0⟩

/-- The tail of MultiplexParser::next after a header with a nonzero
count: read the start register byte, set remaining_, and yield the
first pair if its payload fits, else end with no element. -/
def yieldRun (p : MultiplexParser) (count : ℕ) :
    Option (ℕ × Resolution) × MultiplexParser :=
  if p.size < p.offset + 1 + ResolutionSize p.currentResolution then
    (none,
     ⟨p.data, p.size, p.offset + 1, count - 1, p.currentResolution,
      p.data.getD p.offset 0⟩)
  else
    (some (p.data.getD p.offset 0, p.currentResolution),
     ⟨p.data, p.size, p.offset + 1, count - 1, p.currentResolution,
      p.data.getD p.offset 0 + 1⟩)

/-- The header-scanning while loop of MultiplexParser::next: skip kNop
filler, decode a reply opcode (resolution code and inline count, with
an explicit count byte when the inline count is zero), stop at the end
of the buffer, and treat any other opcode as an unrecoverable framing
error by jumping the cursor to the end of the buffer. -/
def scan (p : MultiplexParser) : Option (ℕ × Resolution) × MultiplexParser :=
  if h : p.offset < p.size then
    if p.data.getD p.offset 0 = kNop then
      scan ⟨p.data, p.size, p.offset + 1, p.remaining,
        p.currentResolution, p.currentRegister⟩
    else if p.size ≤ p.offset + 1 then
      (none, ⟨p.data, p.size, p.offset + 1, p.remaining,
        p.currentResolution, p.currentRegister⟩)
    else if 0x20 ≤ p.data.getD p.offset 0 ∧ p.data.getD p.offset 0 < 0x30 then
      if p.data.getD p.offset 0 % 4 = 0 then
        if p.size ≤ p.offset + 2 then
          (none, ⟨p.data, p.size, p.offset + 2, p.remaining,
            idToResolution (p.data.getD p.offset 0 / 4 % 4),
            p.currentRegister⟩)
        else if p.data.getD (p.offset + 1) 0 = 0 then
          scan ⟨p.data, p.size, p.offset + 2, p.remaining,
            idToResolution (p.data.getD p.offset 0 / 4 % 4),
            p.currentRegister⟩
        else
          yieldRun ⟨p.data, p.size, p.offset + 2, p.remaining,
            idToResolution (p.data.getD p.offset 0 / 4 % 4),
            p.currentRegister⟩ (p.data.getD (p.offset + 1) 0)
      else
        yieldRun ⟨p.data, p.size, p.offset + 1, p.remaining,
          idToResolution (p.data.getD p.offset 0 / 4 % 4),
          p.currentRegister⟩ (p.data.getD p.offset 0 % 4)
    else
      (none, ⟨p.data, p.size, p.size, p.remaining,
        p.currentResolution, p.currentRegister⟩)
  else
    (none, p)
termination_by p.size - p.offset
decreasing_by
  · omega
  · omega

/-- MultiplexParser::next: end when the cursor reached the declared
size; inside a run, yield the next consecutive register if its payload
fits (ending with no element otherwise); else scan for a header. -/
def next (p : MultiplexParser) : Option (ℕ × Resolution) × MultiplexParser :=
  if p.size ≤ p.offset then
    (none, p)
  else if p.remaining ≠ 0 then
    if p.size < p.offset + ResolutionSize p.currentResolution then
      (none, ⟨p.data, p.size, p.offset, p.remaining - 1,
        p.currentResolution, p.currentRegister + 1⟩)
    else
      (some (p.currentRegister, p.currentResolution),
       ⟨p.data, p.size, p.offset, p.remaining - 1,
        p.currentResolution, p.currentRegister + 1⟩)
  else
    scan p

/-- Drive the parser as a caller does: after each yielded
(register, resolution) pair consume exactly ResolutionSize bytes of
payload, and stop at the first no-element answer. -/
def parseSeq : ℕ → MultiplexParser → List (ℕ × Resolution)
  | 0, _ => []
  | fuel + 1, p =>
      match next p with
      | (some rr, p1) =>
          rr :: parseSeq fuel ⟨p1.data, p1.size,
            p1.offset + ResolutionSize rr.2, p1.remaining,
            p1.currentResolution, p1.currentRegister⟩
      | (none, _) => []

/-- A pair yielded by yieldRun has its full payload inside the declared
size, and the buffer and size are unchanged. -/
lemma yieldRun_some (p : MultiplexParser) (count : ℕ) (r : ℕ)
    (res : Resolution) (p1 : MultiplexParser)
    (h : yieldRun p count = (some (r, res), p1)) :
    p1.offset + ResolutionSize res ≤ p1.size ∧ p1.size = p.size := by
  unfold yieldRun at h
  split at h
  · exact absurd (congrArg Prod.fst h) (by simp)
  · next hfit =>
      obtain ⟨h1, h2⟩ := Prod.mk.injEq _ _ _ _ ▸ h
      obtain ⟨-, hres⟩ := Prod.mk.injEq _ _ _ _ ▸ Option.some.inj h1
      subst h2
      constructor
      · simp only []
        rw [← hres]
        omega
      · rfl

/-- A pair yielded by the scanning loop has its full payload inside
the declared size, and the buffer and size are unchanged. -/
lemma scan_some (n : ℕ) : ∀ (p : MultiplexParser) (r : ℕ)
    (res : Resolution) (p1 : MultiplexParser),
    p.size - p.offset ≤ n → scan p = (some (r, res), p1) →
    p1.offset + ResolutionSize res ≤ p1.size ∧ p1.size = p.size := by
  induction n with
  | zero =>
      intro p r res p1 hn h
      rw [scan.eq_def, dif_neg (by omega)] at h
      exact absurd (congrArg Prod.fst h) (by simp)
  | succ n ih =>
      intro p r res p1 hn h
      rw [scan.eq_def] at h
      split at h
      · next hlt =>
          split at h
          · have hx := ih ⟨p.data, p.size, p.offset + 1, p.remaining,
              p.currentResolution, p.currentRegister⟩ r res p1
              (by show p.size - (p.offset + 1) ≤ n; omega) h
            exact hx
          · split at h
            · exact absurd (congrArg Prod.fst h) (by simp)
            · split at h
              · split at h
                · split at h
                  · exact absurd (congrArg Prod.fst h) (by simp)
                  · split at h
                    · have hx := ih ⟨p.data, p.size, p.offset + 2,
                        p.remaining,
                        idToResolution (p.data.getD p.offset 0 / 4 % 4),
                        p.currentRegister⟩ r res p1
                        (by show p.size - (p.offset + 2) ≤ n; omega) h
                      exact hx
                    · have hx := yieldRun_some ⟨p.data, p.size,
                        p.offset + 2, p.remaining,
                        idToResolution (p.data.getD p.offset 0 / 4 % 4),
                        p.currentRegister⟩ (p.data.getD (p.offset + 1) 0)
                        r res p1 h
                      exact hx
                · have hx := yieldRun_some ⟨p.data, p.size,
                    p.offset + 1, p.remaining,
                    idToResolution (p.data.getD p.offset 0 / 4 % 4),
                    p.currentRegister⟩ (p.data.getD p.offset 0 % 4)
                    r res p1 h
                  exact hx
              · exact absurd (congrArg Prod.fst h) (by simp)
      · exact absurd (congrArg Prod.fst h) (by simp)

/-- A pair yielded by next has its full payload inside the declared
size. -/
lemma next_some (p : MultiplexParser) (r : ℕ) (res : Resolution)
    (p1 : MultiplexParser) (h : next p = (some (r, res), p1)) :
    p1.offset + ResolutionSize res ≤ p1.size := by
  unfold next at h
  split at h
  · exact absurd (congrArg Prod.fst h) (by simp)
  · split at h
    · split at h
      · exact absurd (congrArg Prod.fst h) (by simp)
      · next hrem hfit =>
          obtain ⟨h1, h2⟩ := Prod.mk.injEq _ _ _ _ ▸ h
          obtain ⟨-, hres⟩ := Prod.mk.injEq _ _ _ _ ▸ Option.some.inj h1
          subst h2
          simp only []
          rw [← hres]
          omega
    · exact (scan_some p.size p r res p1 (by omega) h).1

/-- If scanning (with any kNop filler prefix) meets an opcode that is
neither kNop nor in the reply family, the scan returns no element and
jumps the cursor to the declared size, so the remaining bytes are
never reinterpreted. -/
lemma scan_bad (k : ℕ) : ∀ (p : MultiplexParser) (j : ℕ),
    j - p.offset = k → p.offset ≤ j → j < p.size →
    (∀ m, p.offset ≤ m → m < j → p.data.getD m 0 = kNop) →
    p.data.getD j 0 ≠ kNop →
    ¬(0x20 ≤ p.data.getD j 0 ∧ p.data.getD j 0 < 0x30) →
    ∃ p1, scan p = (none, p1) ∧ p1.offset = p.size ∧ p1.size = p.size ∧
      p1.data = p.data := by
  induction k with
  | zero =>
      intro p j hk hle hlt hnop hbad hrange
      have hj : j = p.offset := by omega
      subst hj
      rw [scan.eq_def, dif_pos hlt, if_neg hbad]
      by_cases hsz : p.size ≤ p.offset + 1
      · rw [if_pos hsz]
        exact ⟨_, rfl, by show p.offset + 1 = p.size; omega, rfl, rfl⟩
      · rw [if_neg hsz, if_neg hrange]
        exact ⟨_, rfl, rfl, rfl, rfl⟩
  | succ k ih =>
      intro p j hk hle hlt hnop hbad hrange
      have hoj : p.offset < j := by omega
      have hofflt : p.offset < p.size := by omega
      rw [scan.eq_def, dif_pos hofflt,
        if_pos (hnop p.offset (le_refl _) hoj)]
      exact ih ⟨p.data, p.size, p.offset + 1, p.remaining,
        p.currentResolution, p.currentRegister⟩ j
        (by show j - (p.offset + 1) = k; omega)
        (by show p.offset + 1 ≤ j; omega) hlt
        (fun m hm1 hm2 => hnop m
          (by have hm1' : p.offset + 1 ≤ m := hm1; omega) hm2)
        hbad hrange

/-- Claim C8: an opcode outside the reply family that is not the kNop
filler stops parsing: that next call yields no element and moves the
cursor to the declared size, and any call on an exhausted parser yields
no element with the state unchanged, so every subsequent call also
yields no element and the remaining bytes are never reinterpreted. -/
theorem C8_framing_error_stops :
    (∀ (p : MultiplexParser) (j : ℕ),
      p.remaining = 0 → p.offset ≤ j → j < p.size →
      (∀ m, p.offset ≤ m → m < j → p.data.getD m 0 = kNop) →
      p.data.getD j 0 ≠ kNop →
      ¬(0x20 ≤ p.data.getD j 0 ∧ p.data.getD j 0 < 0x30) →
      ∃ p1, next p = (none, p1) ∧ p1.offset = p.size ∧
        p1.size = p.size) ∧
    (∀ p : MultiplexParser, p.size ≤ p.offset → next p = (none, p)) := by
  constructor
  · intro p j hrem hle hlt hnop hbad hrange
    unfold next
    rw [if_neg (by omega), if_neg (not_not_intro hrem)]
    obtain ⟨p1, h1, h2, h3, -⟩ :=
      scan_bad (j - p.offset) p j rfl hle hlt hnop hbad hrange
    exact ⟨p1, h1, h2, h3⟩
  · intro p hsz
    unfold next
    rw [if_pos hsz]

/-- Witness for C8 on the buffer [0x31, 0x01] (kReadError opcode). -/
theorem C8_witness :
    ∃ p1, next (MultiplexParser.start [0x31, 0x01] 2) = (none, p1) ∧
      p1.offset = (MultiplexParser.start [0x31, 0x01] 2).size ∧
      p1.size = (MultiplexParser.start [0x31, 0x01] 2).size :=
  C8_framing_error_stops.1 (MultiplexParser.start [0x31, 0x01] 2) 0
    rfl (Nat.le_refl 0) (by decide)
    (fun m _ hm2 => absurd hm2 (Nat.not_lt_zero m))
    (by decide) (by decide)

/-- Claim C5: every pair yielded by next has its full value payload
within the declared size; and truncated buffers (missing header
continuation, missing start-register byte, missing payload) end the
sequence with no element and no error, so the parser yields exactly
the valid prefix — a declared count of 2 with payload bytes for only
one register yields exactly one pair. -/
theorem C5_truncation_silent :
    (∀ (p : MultiplexParser) (r : ℕ) (res : Resolution)
        (p1 : MultiplexParser),
      next p = (some (r, res), p1) →
      p1.offset + ResolutionSize res ≤ p1.size) ∧
    (next (MultiplexParser.start [0x20] 1)).1 = none ∧
    (next (MultiplexParser.start [0x20, 5] 2)).1 = none ∧
    (next (MultiplexParser.start [0x21, 3] 2)).1 = none ∧
    parseSeq 10 (MultiplexParser.start [0x22, 1, 0xAA] 3) =
      [(1, .kInt8)] := by
  refine ⟨next_some, ?_, ?_, ?_, ?_⟩ <;>
    simp [parseSeq, next, MultiplexParser.start, scan, kNop, yieldRun,
      ResolutionSize, idToResolution]

/-- Witness for C5: the pair yielded from [0x21, 3, 0xAA] leaves one
payload byte available. -/
theorem C5_witness :
    (MultiplexParser.mk [0x21, 3, 0xAA] 3 2 0 .kInt8 4).offset +
        ResolutionSize .kInt8 ≤
      (MultiplexParser.mk [0x21, 3, 0xAA] 3 2 0 .kInt8 4).size :=
  C5_truncation_silent.1 (MultiplexParser.start [0x21, 3, 0xAA] 3) 3
    .kInt8 (MultiplexParser.mk [0x21, 3, 0xAA] 3 2 0 .kInt8 4)
    (by simp [next, MultiplexParser.start, scan, kNop, yieldRun,
      ResolutionSize, idToResolution])

/-! ## Frame Writer (WriteCanFrame::Write) -/

/-- The little-endian byte representation of a w-byte value (the
memcpy of the value on the required little-endian host): byte i is
value / 256^i % 256. -/
def leBytes (w : ℕ) (value : ℕ) : List ℕ :=
  (List.range w).map fun i => value / 256 ^ i % 256

/-- WriteCanFrame::Write<T>: the frame is the list of bytes written so
far; w = sizeof(T) and value the unsigned byte representation of the
stored value.  The capacity check precedes the copy, so the overflow
throw (modelled by the false flag) leaves the frame unchanged. -/
def WriteCanFrame.Write (frame : List ℕ) (w : ℕ) (value : ℕ) :
    Bool × List ℕ :=
  if 64 < w + frame.length then (false, frame)
  else (true, frame ++ leBytes w value)

/-- Claim C9: appending a w-byte value to a frame of length L fails
with overflow and leaves contents and length unchanged when L + w
exceeds 64 (the check precedes any write, so there are no partial
writes); otherwise exactly w bytes are appended in little-endian order
and the length becomes L + w. -/
theorem C9_frame_write :
    ∀ (frame : List ℕ) (w value : ℕ),
    (64 < frame.length + w →
      WriteCanFrame.Write frame w value = (false, frame)) ∧
    (frame.length + w ≤ 64 →
      WriteCanFrame.Write frame w value =
        (true, frame ++ leBytes w value) ∧
      (frame ++ leBytes w value).length = frame.length + w ∧
      ∀ i, i < w →
        (frame ++ leBytes w value).getD (frame.length + i) 0 =
          value / 256 ^ i % 256) := by
  intro frame w value
  constructor
  · intro hover
    rw [WriteCanFrame.Write, if_pos (by omega)]
  · intro hfit
    refine ⟨by rw [WriteCanFrame.Write, if_neg (by omega)], ?_, ?_⟩
    · simp [leBytes]
    · intro i hi
      rw [List.getD_append_right _ _ _ _ (by omega), Nat.add_sub_cancel_left]
      have hlen : i < (leBytes w value).length := by simp [leBytes, hi]
      rw [List.getD_eq_getElem _ _ hlen]
      simp [leBytes]

/-- Witness for C9: a full 63-byte frame rejects a 2-byte append
unchanged, and the same append to an empty frame succeeds. -/
theorem C9_witness :
    (WriteCanFrame.Write (List.replicate 63 0) 2 4660 =
      (false, List.replicate 63 0)) ∧
    (WriteCanFrame.Write [] 2 4660 =
        (true, ([] : List ℕ) ++ leBytes 2 4660) ∧
      (([] : List ℕ) ++ leBytes 2 4660).length =
        ([] : List ℕ).length + 2) ∧
    (([] : List ℕ) ++ leBytes 2 4660).getD (([] : List ℕ).length + 1) 0 =
      4660 / 256 ^ 1 % 256 :=
  ⟨(C9_frame_write (List.replicate 63 0) 2 4660).1 (by simp),
   ⟨((C9_frame_write [] 2 4660).2 (by simp)).1,
    ((C9_frame_write [] 2 4660).2 (by simp)).2.1⟩,
   ((C9_frame_write [] 2 4660).2 (by simp)).2.2 1 (by decide)⟩

/-! ## MoteusWrapper constructor (wrapper.h) -/

/-- The condition of the assert in the MoteusWrapper constructor:
dev_name.size() != moteus_id.size() (conjoined with a string literal,
which is always truthy). -/
def MoteusWrapper.assertCond (devNameLen moteusIdLen : ℕ) : Bool :=
  decide (devNameLen ≠ moteusIdLen)

/-- assert aborts the process exactly when its condition is false. -/
def MoteusWrapper.constructionAborts (devNameLen moteusIdLen : ℕ) : Bool :=
  !(MoteusWrapper.assertCond devNameLen moteusIdLen)

/-- Claim C10: for equal-length constructor argument vectors (the
intended well-formed input) the assert condition is false, so
construction fails the assertion and aborts; the assertion passes
exactly when the two lengths differ. -/
theorem C10_wrapper_assert :
    ∀ n m : ℕ,
      (n = m → MoteusWrapper.constructionAborts n m = true) ∧
      (MoteusWrapper.assertCond n m = true ↔ n ≠ m) := by
  intro n m
  constructor
  · intro h
    subst h
    simp [MoteusWrapper.constructionAborts, MoteusWrapper.assertCond]
  · simp [MoteusWrapper.assertCond]

/-- Witness for C10 at lengths 3 and 3. -/
theorem C10_witness :
    MoteusWrapper.constructionAborts 3 3 = true ∧
      (MoteusWrapper.assertCond 3 3 = true ↔ (3 : ℕ) ≠ 3) :=
  ⟨(C10_wrapper_assert 3 3).1 rfl, (C10_wrapper_assert 3 3).2⟩

end Moteus
